import Mathlib

/-!
# Verification of the schema model and migration-diff engine of `sqlx/builder`

Shallow embedding of `builder/def_table.go` (the `Table` aggregate, the
`Table.Diff` migration planner and the `Tables` registry), together with the
ordered member collections (`Columns`, `Keys`) and the `Dialect` capability
they depend on, which live outside the provided sources and are therefore
modelled from the specification.

Go pointers that may be `nil` are embedded as `Option`; the `panic` in
`Table.Diff` is embedded as `Except.error`; the in-place mutation of the
previous table performed by `Diff` is embedded by returning the previous
table's post-state alongside the plan.
-/

set_option autoImplicit false

namespace Sqlx

/-- `DeprecatedActions` metadata of a column (`builder` package): a non-empty
`RenameTo` declares a rename target, an empty one declares plain removal. -/
structure DeprecatedActions where
  renameTo : String
deriving DecidableEq, Repr

/-- Modelled from the spec: a `Column` (its source file is not under `src/`)
carries a name, the optional deprecation metadata consulted by the diff
engine, and a back-reference to its owning table.  The back-reference is
represented by the owning table's identifying fields (name and schema);
type/nullability metadata is opaque to everything verified here and omitted. -/
structure Column where
  name : String
  deprecatedActions : Option DeprecatedActions := none
  tableName : String := ""
  tableSchema : String := ""
deriving DecidableEq, Repr

/-- Modelled from the spec: the ordered, name-indexed `Columns` collection
(its source file is not under `src/`), represented by its insertion-ordered
member list. -/
structure Columns where
  list : List Column := []
deriving DecidableEq, Repr

/-- Upsert into an ordered, name-keyed member list: an existing member with
the same name is replaced in place, otherwise the new member is appended.
Modelled from the spec's ordered-collection contract. -/
def upsertBy {α : Type} (key : α → String) (l : List α) (x : α) : List α :=
  if l.any (fun y => key y == key x) then
    l.map (fun y => if key y == key x then x else y)
  else
    l ++ [x]

/-- Modelled from the spec: `Columns.Add` upserts by name. -/
def Columns.add (cs : Columns) (c : Column) : Columns :=
  ⟨upsertBy Column.name cs.list c⟩

/-- Modelled from the spec: `Columns.Col` is lookup by column name. -/
def Columns.col (cs : Columns) (n : String) : Option Column :=
  cs.list.find? (fun c => c.name == n)

/-- Modelled from the spec: the textual representation of a column list
(`Columns.Expr().Query()` in the source, not under `src/`).  The diff engine
only compares these strings for equality, so the comma-joined member names
are a faithful representation. -/
def Columns.queryText (cs : Columns) : String :=
  String.intercalate "," (cs.list.map Column.name)

/-- Modelled from the spec: a `Key` (its source file is not under `src/`)
carries a name, the primary flag, its ordered member columns and a
back-reference to its owning table. -/
structure Key where
  name : String
  primary : Bool := false
  columns : Columns := {}
  tableName : String := ""
  tableSchema : String := ""
deriving DecidableEq, Repr

/-- Modelled from the spec: the ordered, name-indexed `Keys` collection. -/
structure Keys where
  list : List Key := []
deriving DecidableEq, Repr

/-- Modelled from the spec: `Keys.Add` upserts by name. -/
def Keys.add (ks : Keys) (k : Key) : Keys :=
  ⟨upsertBy Key.name ks.list k⟩

/-- Modelled from the spec: `Keys.Key` is lookup by key name. -/
def Keys.getKey (ks : Keys) (n : String) : Option Key :=
  ks.list.find? (fun k => k.name == n)

/-- The `Table` aggregate of `def_table.go`: name, optional schema qualifier,
originating-model name, and the two ordered member collections.  The `Model`
interface field is irrelevant to every verified operation and omitted. -/
structure Table where
  name : String
  description : List String := []
  schema : String := ""
  modelName : String := ""
  columns : Columns := {}
  keys : Keys := {}
deriving DecidableEq, Repr

/-- `Table.IsNil` of `def_table.go` (nil receiver embedded as the caller's
concern; a value receiver is nil-like when its name is empty). -/
def Table.isNilTable (t : Table) : Bool :=
  t.name == ""

/-- Modelled from the spec: `Column.On` re-owns a column, repointing its
back-reference to the given table (represented by that table's identity). -/
def Column.on (c : Column) (t : Table) : Column :=
  { c with tableName := t.name, tableSchema := t.schema }

/-- Modelled from the spec: `Key.On` re-owns a key, repointing its
back-reference to the given table. -/
def Key.on (k : Key) (t : Table) : Key :=
  { k with tableName := t.name, tableSchema := t.schema }

/-- `Table.Col` — lookup of a column by name through the embedded `Columns`
collection. -/
def Table.Col (t : Table) (n : String) : Option Column :=
  t.columns.col n

/-- `Table.Key` lookup of a key by name through the embedded `Keys`
collection (named `getKey` because `Key` is taken by the member type). -/
def Table.getKey (t : Table) (n : String) : Option Key :=
  t.keys.getKey n

/-- `Table.AddCol` of `def_table.go`: a nil column pointer (here `none`) is
a silent no-op, otherwise the column is re-owned and upserted. -/
def Table.AddCol (t : Table) (d : Option Column) : Table :=
  match d with
  | none => t
  | some c => { t with columns := t.columns.add (c.on t) }

/-- `Table.AddKey` of `def_table.go`: a nil key pointer (here `none`) is a
silent no-op, otherwise the key is re-owned and upserted. -/
def Table.AddKey (t : Table) (d : Option Key) : Table :=
  match d with
  | none => t
  | some k => { t with keys := t.keys.add (k.on t) }

/-- `Table.WithSchema` of `def_table.go`: value receiver, sets the schema,
then rebuilds both member collections from scratch, re-owning every member
to the new table value. -/
def Table.WithSchema (t : Table) (schema : String) : Table :=
  let t1 : Table := { t with schema := schema }
  let cols : Columns := t1.columns.list.foldl (fun cs c => cs.add (c.on t1)) ⟨[]⟩
  let t2 : Table := { t1 with columns := cols }
  let ks : Keys := t2.keys.list.foldl (fun acc k => acc.add (k.on t2)) ⟨[]⟩
  { t2 with keys := ks }

/-- A variadic argument of the `T` constructor: a `*Column` value (possibly
a typed nil pointer), a `*Key` value (possibly nil), or any other
implementation of `TableDefinition` (including a nil interface), which the
constructor's type switch ignores. -/
inductive TableDefinition where
  | colDef (c : Option Column)
  | keyDef (k : Option Key)
  | otherDef
deriving DecidableEq, Repr

/-- The `T` constructor of `def_table.go`: partitions the variadic member
list by runtime type, adding all columns first, then all keys. -/
def T (tableName : String) (defs : List TableDefinition) : Table :=
  let t0 : Table := { name := tableName }
  let t1 := defs.foldl
    (fun t d => match d with
      | TableDefinition.colDef c => t.AddCol c
      | _ => t) t0
  defs.foldl
    (fun t d => match d with
      | TableDefinition.keyDef k => t.AddKey k
      | _ => t) t1

/-- Modelled from the spec: the `Dialect` capability consumed by the diff
engine, reduced to its data content.  The seven SQL-text constructors are
represented symbolically by `SqlOp` below, so the only remaining datum is
the dialect's canonical primary-key name. -/
structure Dialect where
  primaryKeyName : String
deriving DecidableEq, Repr

/-- Modelled from the spec: a SQL operation emitted by the diff engine.  The
engine never inspects the dialect's output, only sequences it, so the seven
dialect calls are embedded as symbolic constructors recording which
operation was requested for which argument. -/
inductive SqlOp where
  | addColumn (c : Column)
  | dropColumn (c : Column)
  | modifyColumn (c : Column)
  | renameColumn (oldCol newCol : Column)
  | addIndex (k : Key)
  | dropIndex (k : Key)
deriving DecidableEq, Repr

/-- The column names an operation of the plan is about (the column arguments
of the four column operations; index operations carry a key, not a column). -/
def SqlOp.columnNames : SqlOp → List String
  | SqlOp.addColumn c => [c.name]
  | SqlOp.dropColumn c => [c.name]
  | SqlOp.modifyColumn c => [c.name]
  | SqlOp.renameColumn a b => [a.name, b.name]
  | SqlOp.addIndex _ => []
  | SqlOp.dropIndex _ => []

instance {ε α : Type} [DecidableEq ε] [DecidableEq α] :
    DecidableEq (Except ε α) := fun x y =>
  match x, y with
  | Except.error a, Except.error b =>
    if h : a = b then Decidable.isTrue (by rw [h])
    else Decidable.isFalse (by intro hh; injection hh; exact h (by assumption))
  | Except.error _, Except.ok _ =>
    Decidable.isFalse (by intro hh; exact Except.noConfusion hh)
  | Except.ok _, Except.error _ =>
    Decidable.isFalse (by intro hh; exact Except.noConfusion hh)
  | Except.ok a, Except.ok b =>
    if h : a = b then Decidable.isTrue (by rw [h])
    else Decidable.isFalse (by intro hh; injection hh; exact h (by assumption))

/-- One step of the column pass of `Table.Diff` (`def_table.go` lines
134-167), for one current column `col`.  The accumulator carries the
operations emitted so far and the current state of the previous table
(which the Go code mutates through its pointer); the `panic` on an
undeclared rename target is `Except.error`. -/
def diffColumnStep (t : Table) (acc : List SqlOp × Table) (col : Column) :
    Except String (List SqlOp × Table) :=
  let ops := acc.1
  let prev := acc.2
  if (prev.Col col.name).isSome then
    match t.Col col.name with
    | some currentCol =>
      match currentCol.deprecatedActions with
      | some da =>
        if da.renameTo ≠ "" then
          let ops1 :=
            match prev.Col da.renameTo with
            | some prevCol => ops ++ [SqlOp.dropColumn prevCol]
            | none => ops
          match t.Col da.renameTo with
          | none => Except.error ("col " ++ da.renameTo ++ " is not declared")
          | some targetCol =>
            Except.ok (ops1 ++ [SqlOp.renameColumn col targetCol],
              prev.AddCol (some targetCol))
        else
          Except.ok (ops ++ [SqlOp.dropColumn col], prev)
      | none => Except.ok (ops ++ [SqlOp.modifyColumn col], prev)
    | none => Except.ok (ops ++ [SqlOp.dropColumn col], prev)
  else
    if col.deprecatedActions.isNone then
      Except.ok (ops ++ [SqlOp.addColumn col], prev)
    else
      Except.ok (ops, prev)

/-- The column pass of `Table.Diff`: fold `diffColumnStep` over the current
columns in declared order, short-circuiting on the fatal rename error. -/
def columnPass (t : Table) : List Column → List SqlOp × Table →
    Except String (List SqlOp × Table)
  | [], acc => Except.ok acc
  | c :: rest, acc =>
    match diffColumnStep t acc c with
    | Except.error e => Except.error e
    | Except.ok acc1 => columnPass t rest acc1

/-- One step of the index pass of `Table.Diff` (`def_table.go` lines
172-188), for one current key: the visited normalized name, and the
operations emitted for this key.  `prev` is the previous table as left by
the column pass; note that the recreation condition compares the key's
column-list text with the text of the previous table's whole column list. -/
def diffKeyStep (prev : Table) (dialect : Dialect) (key : Key) :
    String × List SqlOp :=
  let name := if key.primary then dialect.primaryKeyName else key.name
  let ops :=
    match prev.getKey name with
    | none => [SqlOp.addIndex key]
    | some _ =>
      if !key.primary && key.columns.queryText != prev.columns.queryText then
        [SqlOp.dropIndex key, SqlOp.addIndex key]
      else
        []
  (name, ops)

/-- The index pass of `Table.Diff`: visited normalized names of all current
keys, and the concatenated per-key operations in declared order. -/
def indexPass (t prev : Table) (dialect : Dialect) : List String × List SqlOp :=
  let rs := t.keys.list.map (diffKeyStep prev dialect)
  (rs.map Prod.fst, (rs.map Prod.snd).flatten)

/-- `strings.ToLower` of the Go standard library, restricted to ASCII (every
identifier the diff engine lowercases is an ASCII SQL name). -/
def strToLower (s : String) : String :=
  ⟨s.data.map (fun c =>
    if 65 ≤ c.toNat ∧ c.toNat ≤ 90 then Char.ofNat (c.toNat + 32) else c)⟩

/-- The final pass of `Table.Diff` (`def_table.go` lines 190-194): drop
every previous key whose lowercased name is not among the visited names
(which are recorded verbatim, without lowercasing). -/
def removedIndexPass (prev : Table) (visited : List String) : List SqlOp :=
  prev.keys.list.filterMap (fun k =>
    if visited.contains (strToLower k.name) then none
    else some (SqlOp.dropIndex k))

/-- `Table.Diff` of `def_table.go`: the column pass, then the index pass,
then the drop pass over the keys remaining in the previous table.  Returns
the ordered plan together with the post-state of the previous table, which
the Go code mutates in place when a rename target is registered. -/
def Table.Diff (t prevTable : Table) (dialect : Dialect) :
    Except String (List SqlOp × Table) :=
  match columnPass t t.columns.list ([], prevTable) with
  | Except.error e => Except.error e
  | Except.ok (ops, prev1) =>
    let ix := indexPass t prev1 dialect
    Except.ok (ops ++ ix.2 ++ removedIndexPass prev1 ix.1, prev1)

/-- Update-or-append on an association list, the model of a Go map write. -/
def assocSet (l : List (String × Table)) (k : String) (v : Table) :
    List (String × Table) :=
  if l.any (fun p => p.1 == k) then
    l.map (fun p => if p.1 == k then (k, v) else p)
  else
    l ++ [(k, v)]

/-- Lookup on an association list, the model of a Go map read. -/
def assocGet (l : List (String × Table)) (k : String) : Option Table :=
  (l.find? (fun p => p.1 == k)).map Prod.snd

/-- The `Tables` registry of `def_table.go`: the ordered backbone (Go's
`container/list`, embedded as the list of element values in order) and the
two lookup indices; each index entry holds the table value its list element
carries. -/
structure Tables where
  l : List Table := []
  tables : List (String × Table) := []
  models : List (String × Table) := []
deriving DecidableEq, Repr

/-- `Tables.Remove` of `def_table.go`: when the name is present in the name
index, the element is removed from the backbone and the name index — and,
faithfully to the source, from nothing else. -/
def Tables.remove (ts : Tables) (name : String) : Tables :=
  if (ts.tables.find? (fun p => p.1 == name)).isSome then
    { ts with
      l := ts.l.eraseP (fun tab => tab.name == name),
      tables := ts.tables.filter (fun p => p.1 != name) }
  else
    ts

/-- `Tables.Add` of `def_table.go` for one non-nil table: remove any stale
same-named entry, push the table to the back of the backbone, and index it
by table name and (when non-empty) by model name. -/
def Tables.add (ts : Tables) (tab : Table) : Tables :=
  let ts1 := if (ts.tables.find? (fun p => p.1 == tab.name)).isSome then
    ts.remove tab.name else ts
  { l := ts1.l ++ [tab],
    tables := assocSet ts1.tables tab.name tab,
    models := if tab.modelName ≠ "" then assocSet ts1.models tab.modelName tab
      else ts1.models }

/-- `Tables.Table` lookup by table name (named `getTable` because `Table`
is taken by the member type). -/
def Tables.getTable (ts : Tables) (name : String) : Option Table :=
  assocGet ts.tables name

/-- `Tables.Model` lookup by originating-model name. -/
def Tables.getModel (ts : Tables) (name : String) : Option Table :=
  assocGet ts.models name

/-- `Tables.TableNames`: the names of the registry members in backbone
(insertion) order, as produced by `Range`. -/
def Tables.tableNames (ts : Tables) : List String :=
  ts.l.map Table.name

/-! ## Helper lemmas about name-keyed lookup and upsert -/

section Lookup

variable {α : Type} (key : α → String)

theorem findKey_isSome_iff {l : List α} {n : String} :
    (l.find? (fun y => key y == n)).isSome = true ↔ n ∈ l.map key := by
  rw [List.find?_isSome]
  constructor
  · rintro ⟨x, hx, hpx⟩
    exact List.mem_map.mpr ⟨x, hx, eq_of_beq hpx⟩
  · intro h
    obtain ⟨x, hx, rfl⟩ := List.mem_map.mp h
    exact ⟨x, hx, by simp⟩

theorem findKey_eq_of_some {l : List α} {n : String} {x : α}
    (h : l.find? (fun y => key y == n) = some x) : key x = n ∧ x ∈ l := by
  have hp := List.find?_some h
  exact ⟨eq_of_beq (by simpa using hp), List.mem_of_find?_eq_some h⟩

theorem upsertBy_map_key (l : List α) (z : α) :
    (upsertBy key l z).map key
      = if l.any (fun y => key y == key z) then l.map key
        else l.map key ++ [key z] := by
  unfold upsertBy
  split
  · simp only [List.map_map]
    refine List.map_congr_left ?_
    intro y _
    simp only [Function.comp_apply]
    split
    · exact (eq_of_beq (by assumption)).symm
    · rfl
  · simp

theorem upsertBy_mem_map_key {l : List α} {z : α} {n : String}
    (h : n ∈ l.map key) : n ∈ (upsertBy key l z).map key := by
  rw [upsertBy_map_key]
  split
  · exact h
  · exact List.mem_append_left _ h

theorem foldl_upsertBy_fresh (g : α → α) (hg : ∀ x, key (g x) = key x) :
    ∀ (l acc : List α), (l.map key).Nodup →
      (∀ x ∈ l, ∀ a ∈ acc, key a ≠ key x) →
      l.foldl (fun cs c => upsertBy key cs (g c)) acc = acc ++ l.map g
  | [], acc, _, _ => by simp
  | x :: l, acc, hnd, hdisj => by
    have hany : (acc.any (fun y => key y == key (g x))) = false := by
      rw [List.any_eq_false]
      intro a ha
      rw [hg]
      simpa using hdisj x (List.mem_cons_self x l) a ha
    have hstep : upsertBy key acc (g x) = acc ++ [g x] := by
      unfold upsertBy
      rw [hany]
      simp
    have hrec := foldl_upsertBy_fresh g hg l (acc ++ [g x])
      (by simpa using (List.nodup_cons.mp (by simpa using hnd)).2)
      (by
        intro y hy a ha
        rcases List.mem_append.mp ha with ha | ha
        · exact hdisj y (List.mem_cons_of_mem x hy) a ha
        · have hax : a = g x := by simpa using ha
          subst hax
          rw [hg]
          intro heq
          have hx1 : key x ∉ l.map key := (List.nodup_cons.mp (by simpa using hnd)).1
          exact hx1 (heq ▸ List.mem_map_of_mem key hy))
    simp only [List.foldl_cons, hstep, hrec]
    simp

end Lookup

theorem columns_foldl_add_list (g : Column → Column) :
    ∀ (l : List Column) (acc : Columns),
      (l.foldl (fun cs c => cs.add (g c)) acc).list
        = l.foldl (fun ls c => upsertBy Column.name ls (g c)) acc.list := by
  intro l
  induction l with
  | nil => intro acc; rfl
  | cons x l ih => intro acc; simpa [Columns.add] using ih ⟨upsertBy Column.name acc.list (g x)⟩

theorem keys_foldl_add_list (g : Key → Key) :
    ∀ (l : List Key) (acc : Keys),
      (l.foldl (fun ks k => ks.add (g k)) acc).list
        = l.foldl (fun ls k => upsertBy Key.name ls (g k)) acc.list := by
  intro l
  induction l with
  | nil => intro acc; rfl
  | cons x l ih => intro acc; simpa [Keys.add] using ih ⟨upsertBy Key.name acc.list (g x)⟩

/-! ## C10 — nil members are silent no-ops, `T` skips them -/

/-- A variadic member that the `T` constructor actually attaches: a non-nil
column or a non-nil key. -/
def TableDefinition.isLive : TableDefinition → Bool
  | TableDefinition.colDef (some _) => true
  | TableDefinition.keyDef (some _) => true
  | _ => false

theorem foldl_colStep_filter_isLive (defs : List TableDefinition) :
    ∀ t : Table,
      defs.foldl
        (fun t d => match d with
          | TableDefinition.colDef c => t.AddCol c
          | _ => t) t
      = (defs.filter TableDefinition.isLive).foldl
        (fun t d => match d with
          | TableDefinition.colDef c => t.AddCol c
          | _ => t) t := by
  induction defs with
  | nil => intro t; rfl
  | cons d defs ih =>
    intro t
    match d with
    | TableDefinition.colDef (some c) => simpa [TableDefinition.isLive] using ih (t.AddCol (some c))
    | TableDefinition.colDef none => simpa [TableDefinition.isLive, Table.AddCol] using ih t
    | TableDefinition.keyDef (some k) => simpa [TableDefinition.isLive] using ih t
    | TableDefinition.keyDef none => simpa [TableDefinition.isLive] using ih t
    | TableDefinition.otherDef => simpa [TableDefinition.isLive] using ih t

theorem foldl_keyStep_filter_isLive (defs : List TableDefinition) :
    ∀ t : Table,
      defs.foldl
        (fun t d => match d with
          | TableDefinition.keyDef k => t.AddKey k
          | _ => t) t
      = (defs.filter TableDefinition.isLive).foldl
        (fun t d => match d with
          | TableDefinition.keyDef k => t.AddKey k
          | _ => t) t := by
  induction defs with
  | nil => intro t; rfl
  | cons d defs ih =>
    intro t
    match d with
    | TableDefinition.colDef (some c) => simpa [TableDefinition.isLive] using ih t
    | TableDefinition.colDef none => simpa [TableDefinition.isLive] using ih t
    | TableDefinition.keyDef (some k) => simpa [TableDefinition.isLive] using ih (t.AddKey (some k))
    | TableDefinition.keyDef none => simpa [TableDefinition.isLive, Table.AddKey] using ih t
    | TableDefinition.otherDef => simpa [TableDefinition.isLive] using ih t

/-- **C10.** `Table.AddCol` with a nil column pointer and `Table.AddKey`
with a nil key pointer are silent no-ops (the table's collections are
exactly as before), and consequently the `T` constructor produces the same
table when nil members and members of any other kind are removed from its
variadic argument list: it only attaches live columns and keys, without
failing. -/
theorem AddCol_AddKey_nil_noop_T_skips :
    (∀ t : Table, t.AddCol none = t) ∧
    (∀ t : Table, t.AddKey none = t) ∧
    (∀ (name : String) (defs : List TableDefinition),
      T name defs = T name (defs.filter TableDefinition.isLive)) := by
  refine ⟨fun t => rfl, fun t => rfl, fun name defs => ?_⟩
  show (defs.foldl _ (defs.foldl _ _)) = _
  rw [foldl_colStep_filter_isLive, foldl_keyStep_filter_isLive]
  rfl

/-! ## C8 — `WithSchema` rebuilds a fresh, re-owned table value -/

/-- **C8.** `Table.WithSchema s` returns a table value whose `Schema` field
is `s`, with the same name, and in which every column and every key has been
re-added, in order, with its back-reference repointed to the new table value
(identified by the unchanged table name and the new schema).  The receiver
is passed by value in the source, so the embedding as a pure function is
exact and the original table value is unaffected by construction. -/
theorem WithSchema_rebuilds (t : Table) (s : String)
    (hc : (t.columns.list.map Column.name).Nodup)
    (hk : (t.keys.list.map Key.name).Nodup) :
    (t.WithSchema s).name = t.name ∧
    (t.WithSchema s).schema = s ∧
    (t.WithSchema s).columns.list
      = t.columns.list.map
          (fun c => { c with tableName := t.name, tableSchema := s }) ∧
    (t.WithSchema s).keys.list
      = t.keys.list.map
          (fun k => { k with tableName := t.name, tableSchema := s }) := by
  refine ⟨rfl, rfl, ?_, ?_⟩
  · show (t.columns.list.foldl _ (⟨[]⟩ : Columns)).list = _
    rw [columns_foldl_add_list]
    have h := foldl_upsertBy_fresh Column.name
      (fun c => c.on { t with schema := s }) (fun x => rfl) t.columns.list []
      hc (by intro x _ a ha; simp at ha)
    simpa [Column.on] using h
  · show (t.keys.list.foldl _ (⟨[]⟩ : Keys)).list = _
    rw [keys_foldl_add_list]
    have h := foldl_upsertBy_fresh Key.name
      (fun k => k.on { t with schema := s }) (fun x => rfl) t.keys.list []
      hk (by intro x _ a ha; simp at ha)
    simpa [Key.on] using h

/-! ## Concrete fixtures used by counterexamples and witnesses -/

/-- A dialect whose canonical primary-key name is `pk`. -/
def dpk : Dialect := { primaryKeyName := "pk" }

def cA : Column := { name := "a" }

def cB : Column := { name := "b" }

/-- A non-primary key over column `a` only. -/
def kIdx : Key := { name := "idx", columns := ⟨[cA]⟩ }

/-- Columns `a,b`, one secondary key `idx(a)`. -/
def t4 : Table := { name := "users", columns := ⟨[cA, cB]⟩, keys := ⟨[kIdx]⟩ }

/-- The plan of `t4.Diff t4 dpk`. -/
def plan4 : List SqlOp :=
  [SqlOp.modifyColumn cA, SqlOp.modifyColumn cB,
   SqlOp.dropIndex kIdx, SqlOp.addIndex kIdx]

def cOld : Column := { name := "old", deprecatedActions := some ⟨"new"⟩ }

def cNew : Column := { name := "new" }

/-- Current schema renaming `old` to `new`. -/
def tR : Table := { name := "users", columns := ⟨[cOld, cNew]⟩ }

def cOldPrev : Column := { name := "old" }

/-- Previous schema holding only the old column. -/
def prevOldOnly : Table := { name := "users", columns := ⟨[cOldPrev]⟩ }

/-- The post-state of `prevOldOnly` after `tR.Diff prevOldOnly dpk`: the
rename target has been registered into it (re-owned by it). -/
def prevOldOnlyMut : Table :=
  { name := "users",
    columns := ⟨[cOldPrev, { cNew with tableName := "users" }]⟩ }

/-- The plan of `tR.Diff prevOldOnly dpk`. -/
def planR : List SqlOp :=
  [SqlOp.renameColumn cOld cNew, SqlOp.modifyColumn cNew]

/-- Current schema declaring a rename whose target column is absent. -/
def tBad : Table := { name := "users", columns := ⟨[cOld]⟩ }

/-- A secondary key with an upper-case name, over column `a` only. -/
def kIDX : Key := { name := "IDX", columns := ⟨[cA]⟩ }

/-- One column `a`, one secondary key `IDX(a)` (so the key's column-list
text equals the table's whole column-list text). -/
def tU : Table := { name := "users", columns := ⟨[cA]⟩, keys := ⟨[kIDX]⟩ }

/-- A registry member with a model name. -/
def usersT : Table := { name := "users", modelName := "User" }

def zObs : Column := { name := "z" }

def t7 : Table := { name := "users", columns := ⟨[cA]⟩ }

/-- Previous schema with a column `z` absent from the current schema. -/
def prev7 : Table := { name := "users", columns := ⟨[cA, zObs]⟩ }

theorem WithSchema_rebuilds_witness :
    (t4.WithSchema "public").name = t4.name ∧
    (t4.WithSchema "public").schema = "public" ∧
    (t4.WithSchema "public").columns.list
      = [{ cA with tableName := "users", tableSchema := "public" },
         { cB with tableName := "users", tableSchema := "public" }] ∧
    (t4.WithSchema "public").keys.list
      = [{ kIdx with tableName := "users", tableSchema := "public" }] :=
  WithSchema_rebuilds t4 "public" (by decide) (by decide)

/-! ## C9 — the registry's `Remove` does not clean the model index -/

/-- **C9.** The claim (and the spec) say `Remove(name)` deletes the entry
from the ordered backbone and from **both** lookup indices.  The code only
deletes from the backbone and the table-name index: after adding the table
`users` with model name `User` and then removing `"users"`, `Table "users"`
is gone and the backbone is empty, but `Model "User"` still returns the
removed table — `Tables.Remove` never touches the `models` map. -/
theorem tables_remove_leaves_stale_model_entry :
    ((({} : Tables).add usersT).remove "users").getTable "users" = none ∧
    ((({} : Tables).add usersT).remove "users").l = [] ∧
    ((({} : Tables).add usersT).remove "users").getModel "User" = some usersT := by
  decide

/-! ## Counterexamples on the diff engine -/

/-- **C1 — counterexample.** Self-diff of `t4` (columns `a,b`, secondary key
`idx(a)`): the same-named previous key exists and its column-list text is
identical to the current key's, so the claim says no `DropIndex`/`AddIndex`
pair may be emitted; the code emits one anyway, because the recreation
condition compares the key's column list against the previous table's whole
column list (`a` vs `a,b`). -/
theorem diff_recreates_index_despite_equal_key_columns :
    t4.Diff t4 dpk = Except.ok (plan4, t4) ∧
    ((t4.getKey "idx").map (fun k => k.columns.queryText))
      = some kIdx.columns.queryText ∧
    kIdx.primary = false ∧
    SqlOp.dropIndex kIdx ∈ plan4 ∧ SqlOp.addIndex kIdx ∈ plan4 := by
  decide

/-- **C2 — counterexample.** Diffing `tR` (renames `old` to `new`) against
`prevOldOnly` (which holds a column under the old name `old` and none under
`new`): the claim says the previous column under the old name is found and
dropped, but the code looks the previous column up under the rename target
name, finds nothing, and emits no `DropColumn` at all. -/
theorem diff_rename_emits_no_drop_for_old_named_prev_column :
    tR.Diff prevOldOnly dpk = Except.ok (planR, prevOldOnlyMut) ∧
    (prevOldOnly.Col "old").isSome = true ∧
    (planR.all (fun op =>
      match op with
      | SqlOp.dropColumn _ => false
      | _ => true)) = true := by
  decide

/-- **C4 — counterexample.** `t4` has no deprecated column and its only
key's column list is unchanged between the two identical copies being
diffed, so the claim says the self-diff plan contains zero index
operations; the code recreates the index. -/
theorem self_diff_emits_index_operations :
    (∀ c ∈ t4.columns.list, c.deprecatedActions = none) ∧
    t4.Diff t4 dpk = Except.ok (plan4, t4) ∧
    SqlOp.dropIndex kIdx ∈ plan4 := by
  decide

/-- **C5 — counterexample.** Self-diff of `tU`, whose single secondary key
is named `IDX`: the visited name recorded by the current-key pass is
exactly `IDX`, and the previous key's name `IDX` matches it
case-insensitively, so the claim says it is never dropped in the final
pass; the code lowercases only the previous key's name, looks up `idx`
among the verbatim visited names, misses, and drops the key. -/
theorem diff_drops_case_insensitively_visited_key :
    tU.Diff tU dpk
      = Except.ok ([SqlOp.modifyColumn cA, SqlOp.dropIndex kIDX], tU) ∧
    (indexPass tU tU dpk).1 = ["IDX"] ∧
    strToLower kIDX.name = strToLower "IDX" ∧
    SqlOp.dropIndex kIDX ∈ [SqlOp.modifyColumn cA, SqlOp.dropIndex kIDX] := by
  decide

/-- **C6 — counterexample.** `Table.Diff` is not free of effects on its
inputs: diffing `tR` (a rename) against `prevOldOnly` registers the rename
target into the previous table, whose column collection afterwards differs
from its pre-call value. -/
theorem diff_mutates_previous_table_on_rename :
    tR.Diff prevOldOnly dpk = Except.ok (planR, prevOldOnlyMut) ∧
    prevOldOnlyMut ≠ prevOldOnly := by
  decide

/-! ## C1 (amended) — index recreation for a matched key -/

/-- **C1 — amended.** For a current key whose normalized comparison name
(the dialect's canonical primary-key name for a primary key, the declared
name otherwise) is found among the previous table's keys, the index pass
emits `DropIndex(key)` immediately followed by `AddIndex(key)` if and only
if the key is not primary and the textual representation of its column list
differs from that of the **previous table's entire column list** (as left
by the column pass) — not from the matching previous key's column list; for
a matched primary key no index operation is emitted. -/
theorem diffKeyStep_matched (prev : Table) (d : Dialect) (k : Key)
    (h : (prev.getKey (if k.primary then d.primaryKeyName else k.name)).isSome = true) :
    (diffKeyStep prev d k).2
      = if k.primary then []
        else if k.columns.queryText ≠ prev.columns.queryText
          then [SqlOp.dropIndex k, SqlOp.addIndex k]
          else [] := by
  obtain ⟨pk, hpk⟩ := Option.isSome_iff_exists.mp h
  unfold diffKeyStep
  simp only [hpk]
  cases hp : k.primary
  · by_cases hq : k.columns.queryText = prev.columns.queryText
    · simp [hq]
    · simp [hq, bne_iff_ne]
  · simp

theorem diffKeyStep_matched_witness :
    (t4.getKey (if kIdx.primary then dpk.primaryKeyName else kIdx.name)).isSome = true ∧
    (diffKeyStep t4 dpk kIdx).2
      = if kIdx.primary then []
        else if kIdx.columns.queryText ≠ t4.columns.queryText
          then [SqlOp.dropIndex kIdx, SqlOp.addIndex kIdx]
          else [] :=
  ⟨by decide, diffKeyStep_matched t4 dpk kIdx (by decide)⟩

/-! ## C5 (amended) — the final drop pass -/

/-- **C5 — amended.** In the final pass, `DropIndex(previousKey)` is
emitted for exactly those previous keys whose **lowercased** name is absent
from the visited names, which are matched **verbatim** (they are not
lowercased themselves); a previous key whose lowercased name exactly equals
a visited name is never dropped there.  This agrees with the claimed
case-insensitive comparison only when every visited name is already
lowercase. -/
theorem removedIndexPass_mem_iff (prev : Table) (visited : List String) (k : Key)
    (hk : k ∈ prev.keys.list) :
    SqlOp.dropIndex k ∈ removedIndexPass prev visited
      ↔ visited.contains (strToLower k.name) = false := by
  unfold removedIndexPass
  constructor
  · intro h
    obtain ⟨k2, hk2, hf⟩ := List.mem_filterMap.mp h
    by_cases hc : visited.contains (strToLower k2.name) = true
    · rw [if_pos hc] at hf
      exact absurd hf (by simp)
    · rw [if_neg hc] at hf
      injection hf with hf2
      injection hf2 with hf3
      subst hf3
      simpa using hc
  · intro h
    refine List.mem_filterMap.mpr ⟨k, hk, ?_⟩
    rw [if_neg (by simpa using h)]

theorem removedIndexPass_mem_iff_witness :
    kIDX ∈ tU.keys.list ∧
    (SqlOp.dropIndex kIDX ∈ removedIndexPass tU ["IDX"]
      ↔ (["IDX"].contains (strToLower kIDX.name)) = false) :=
  ⟨by decide, removedIndexPass_mem_iff tU ["IDX"] kIDX (by decide)⟩



theorem diffColumnStep_modify {t : Table} {acc : List SqlOp × Table} {c c' : Column}
    (hprev : ((acc.2).Col c.name).isSome = true)
    (hcol : t.Col c.name = some c')
    (hdep : c'.deprecatedActions = none) :
    diffColumnStep t acc c = Except.ok (acc.1 ++ [SqlOp.modifyColumn c], acc.2) := by
  unfold diffColumnStep
  simp only [hprev, hcol, hdep, if_true]

theorem diffColumnStep_error {t : Table} {acc : List SqlOp × Table} {c c' : Column}
    {da : DeprecatedActions}
    (hprev : ((acc.2).Col c.name).isSome = true)
    (hcol : t.Col c.name = some c')
    (hda : c'.deprecatedActions = some da)
    (hR : da.renameTo ≠ "")
    (hmiss : t.Col da.renameTo = none) :
    diffColumnStep t acc c
      = Except.error ("col " ++ da.renameTo ++ " is not declared") := by
  unfold diffColumnStep
  simp only [hprev, hcol, hda, hmiss, if_true, if_pos hR]

theorem diffColumnStep_rename {t : Table} {acc : List SqlOp × Table} {c c' target : Column}
    {da : DeprecatedActions}
    (hprev : ((acc.2).Col c.name).isSome = true)
    (hcol : t.Col c.name = some c')
    (hda : c'.deprecatedActions = some da)
    (hR : da.renameTo ≠ "")
    (htgt : t.Col da.renameTo = some target) :
    diffColumnStep t acc c
      = Except.ok ((acc.1
          ++ (match (acc.2).Col da.renameTo with
              | some prevCol => [SqlOp.dropColumn prevCol]
              | none => []))
          ++ [SqlOp.renameColumn c target],
          (acc.2).AddCol (some target)) := by
  unfold diffColumnStep
  simp only [hprev, hcol, hda, htgt, if_true, if_pos hR]
  cases hpc : (acc.2).Col da.renameTo <;> simp



theorem diffColumnStep_dropDeprecated {t : Table} {acc : List SqlOp × Table} {c c' : Column}
    {da : DeprecatedActions}
    (hprev : ((acc.2).Col c.name).isSome = true)
    (hcol : t.Col c.name = some c')
    (hda : c'.deprecatedActions = some da)
    (hR : da.renameTo = "") :
    diffColumnStep t acc c = Except.ok (acc.1 ++ [SqlOp.dropColumn c], acc.2) := by
  unfold diffColumnStep
  simp only [hprev, hcol, hda, if_true]
  rw [if_neg (by simp [hR])]

theorem diffColumnStep_dropNoCurrent {t : Table} {acc : List SqlOp × Table} {c : Column}
    (hprev : ((acc.2).Col c.name).isSome = true)
    (hcol : t.Col c.name = none) :
    diffColumnStep t acc c = Except.ok (acc.1 ++ [SqlOp.dropColumn c], acc.2) := by
  unfold diffColumnStep
  simp only [hprev, hcol, if_true]

theorem diffColumnStep_add {t : Table} {acc : List SqlOp × Table} {c : Column}
    (hprev : ((acc.2).Col c.name).isSome = false)
    (hdep : c.deprecatedActions = none) :
    diffColumnStep t acc c = Except.ok (acc.1 ++ [SqlOp.addColumn c], acc.2) := by
  unfold diffColumnStep
  simp only [hprev, hdep, Bool.false_eq_true, if_false, Option.isNone_none, if_true]

theorem diffColumnStep_skip {t : Table} {acc : List SqlOp × Table} {c : Column}
    {da : DeprecatedActions}
    (hprev : ((acc.2).Col c.name).isSome = false)
    (hdep : c.deprecatedActions = some da) :
    diffColumnStep t acc c = Except.ok (acc.1, acc.2) := by
  unfold diffColumnStep
  simp only [hprev, hdep, Bool.false_eq_true, if_false, Option.isNone_some]

theorem diffColumnStep_ok_prev {t : Table} {acc : List SqlOp × Table} {c : Column}
    {ops1 : List SqlOp} {prev1 : Table}
    (h : diffColumnStep t acc c = Except.ok (ops1, prev1)) :
    prev1 = acc.2 ∨ ∃ tc, prev1 = (acc.2).AddCol (some tc) := by
  by_cases hprev : ((acc.2).Col c.name).isSome = true
  · cases hcol : t.Col c.name with
    | some c' =>
      cases hda : c'.deprecatedActions with
      | some da =>
        by_cases hR : da.renameTo = ""
        · rw [diffColumnStep_dropDeprecated hprev hcol hda hR] at h
          injection h with h2
          exact Or.inl (congrArg Prod.snd h2).symm
        · cases htgt : t.Col da.renameTo with
          | none =>
            rw [diffColumnStep_error hprev hcol hda hR htgt] at h
            exact absurd h (by simp)
          | some target =>
            rw [diffColumnStep_rename hprev hcol hda hR htgt] at h
            injection h with h2
            exact Or.inr ⟨target, (congrArg Prod.snd h2).symm⟩
      | none =>
        rw [diffColumnStep_modify hprev hcol hda] at h
        injection h with h2
        exact Or.inl (congrArg Prod.snd h2).symm
    | none =>
      rw [diffColumnStep_dropNoCurrent hprev hcol] at h
      injection h with h2
      exact Or.inl (congrArg Prod.snd h2).symm
  · have hprev2 : ((acc.2).Col c.name).isSome = false := by
      simpa using hprev
    cases hdep : c.deprecatedActions with
    | none =>
      rw [diffColumnStep_add hprev2 hdep] at h
      injection h with h2
      exact Or.inl (congrArg Prod.snd h2).symm
    | some da =>
      rw [diffColumnStep_skip hprev2 hdep] at h
      injection h with h2
      exact Or.inl (congrArg Prod.snd h2).symm



theorem addCol_col_isSome {prev : Table} {n : String} (d : Option Column)
    (h : (prev.Col n).isSome = true) : ((prev.AddCol d).Col n).isSome = true := by
  match d with
  | none => exact h
  | some c =>
    have h1 : n ∈ prev.columns.list.map Column.name := (findKey_isSome_iff Column.name).mp h
    exact (findKey_isSome_iff Column.name).mpr (upsertBy_mem_map_key Column.name h1)

theorem diffColumnStep_col_isSome {t : Table} {acc : List SqlOp × Table} {c : Column}
    {ops1 : List SqlOp} {prev1 : Table} {n : String}
    (h : diffColumnStep t acc c = Except.ok (ops1, prev1))
    (hn : ((acc.2).Col n).isSome = true) : (prev1.Col n).isSome = true := by
  rcases diffColumnStep_ok_prev h with heq | ⟨tc, heq⟩
  · rw [heq]; exact hn
  · rw [heq]; exact addCol_col_isSome (some tc) hn

theorem columnPass_error_of_mem (t : Table) (c : Column) (da : DeprecatedActions)
    (hcol : t.Col c.name = some c)
    (hda : c.deprecatedActions = some da)
    (hR : da.renameTo ≠ "")
    (hmiss : t.Col da.renameTo = none) :
    ∀ (cs : List Column) (acc : List SqlOp × Table), c ∈ cs →
      ((acc.2).Col c.name).isSome = true →
      ∃ e, columnPass t cs acc = Except.error e := by
  intro cs
  induction cs with
  | nil => intro acc h; exact absurd h (List.not_mem_nil c)
  | cons x cs ih =>
    intro acc hmem hprev
    rcases List.mem_cons.mp hmem with rfl | hmem2
    · refine ⟨"col " ++ da.renameTo ++ " is not declared", ?_⟩
      show (match diffColumnStep t acc c with
        | Except.error e => Except.error e
        | Except.ok acc1 => columnPass t cs acc1) = _
      rw [diffColumnStep_error hprev hcol hda hR hmiss]
    · cases hstep : diffColumnStep t acc x with
      | error e =>
        refine ⟨e, ?_⟩
        show (match diffColumnStep t acc x with
          | Except.error e => Except.error e
          | Except.ok acc1 => columnPass t cs acc1) = _
        rw [hstep]
      | ok acc1 =>
        have hstep2 : diffColumnStep t acc x = Except.ok (acc1.1, acc1.2) := hstep
        have hmono := diffColumnStep_col_isSome hstep2 hprev
        obtain ⟨e, he⟩ := ih acc1 hmem2 hmono
        refine ⟨e, ?_⟩
        show (match diffColumnStep t acc x with
          | Except.error e => Except.error e
          | Except.ok acc1 => columnPass t cs acc1) = _
        rw [hstep]
        exact he

/-! ## C3 — an undeclared rename target aborts the diff -/

/-- **C3.** If the current column registered under some name that also
exists in the previous table carries a non-empty rename target `R`, and no
current column is registered under `R`, then `Table.Diff` fails fatally
(the Go code panics, embedded as `Except.error`) and returns no plan,
partial or otherwise. -/
theorem diff_undeclared_rename_target_fatal (t prev : Table) (d : Dialect)
    (c : Column) (da : DeprecatedActions)
    (hcol : t.Col c.name = some c)
    (hprev : (prev.Col c.name).isSome = true)
    (hda : c.deprecatedActions = some da)
    (hR : da.renameTo ≠ "")
    (hmiss : t.Col da.renameTo = none) :
    ∃ e, t.Diff prev d = Except.error e := by
  have hmem : c ∈ t.columns.list := (findKey_eq_of_some Column.name hcol).2
  obtain ⟨e, he⟩ := columnPass_error_of_mem t c da hcol hda hR hmiss
    t.columns.list ([], prev) hmem hprev
  refine ⟨e, ?_⟩
  show (match columnPass t t.columns.list ([], prev) with
    | Except.error e => Except.error e
    | Except.ok (ops, prev1) => _) = _
  rw [he]

theorem diff_undeclared_rename_target_fatal_witness :
    ∃ e, tBad.Diff prevOldOnly dpk = Except.error e :=
  diff_undeclared_rename_target_fatal tBad prevOldOnly dpk cOld ⟨"new"⟩
    (by decide) (by decide) (by decide) (by decide) (by decide)



/-! ## C2 (amended) — the rename branch of the column pass -/

/-- **C2 — amended.** For a current column `c` whose name exists in the
previous table and that carries a non-empty rename target `R` declared in
the current schema: the previous column is looked up under **`R`** — not
under the old name — and `DropColumn` of that previous column is emitted
exactly when it is present; then `RenameColumn(c -> target)` is emitted,
where `target` is the current column registered under `R`; then `target` is
registered into the previous table under `R`; and the pass continues with
the remaining columns, taking no further action for this column. -/
theorem columnPass_rename_step (t : Table) (rest : List Column) (ops : List SqlOp)
    (prev : Table) (c target : Column) (da : DeprecatedActions)
    (hprev : (prev.Col c.name).isSome = true)
    (hcol : t.Col c.name = some c)
    (hda : c.deprecatedActions = some da)
    (hR : da.renameTo ≠ "")
    (htgt : t.Col da.renameTo = some target) :
    columnPass t (c :: rest) (ops, prev)
      = columnPass t rest
          ((ops ++ (match prev.Col da.renameTo with
              | some prevCol => [SqlOp.dropColumn prevCol]
              | none => []))
            ++ [SqlOp.renameColumn c target],
            prev.AddCol (some target)) := by
  show (match diffColumnStep t (ops, prev) c with
    | Except.error e => Except.error e
    | Except.ok acc1 => columnPass t rest acc1) = _
  rw [diffColumnStep_rename hprev hcol hda hR htgt]

theorem columnPass_rename_step_witness :
    columnPass tR [cOld, cNew] ([], prevOldOnly)
      = columnPass tR [cNew]
          (([] ++ (match prevOldOnly.Col "new" with
              | some prevCol => [SqlOp.dropColumn prevCol]
              | none => []))
            ++ [SqlOp.renameColumn cOld cNew],
            prevOldOnly.AddCol (some cNew)) :=
  columnPass_rename_step tR [cNew] [] prevOldOnly cOld cNew ⟨"new"⟩
    (by decide) (by decide) (by decide) (by decide) (by decide)

/-! ## C6 (amended) — `Diff` mutates `previous` only through renames -/

theorem columnPass_no_rename (t : Table)
    (hnr : ∀ c ∈ t.columns.list, ∀ da, c.deprecatedActions = some da → da.renameTo = "") :
    ∀ (cs : List Column) (ops : List SqlOp) (prev : Table),
      ∃ ops1, columnPass t cs (ops, prev) = Except.ok (ops1, prev) := by
  intro cs
  induction cs with
  | nil => intro ops prev; exact ⟨ops, rfl⟩
  | cons x cs ih =>
    intro ops prev
    have hunfold : ∀ acc1, diffColumnStep t (ops, prev) x = Except.ok acc1 →
        columnPass t (x :: cs) (ops, prev) = columnPass t cs acc1 := by
      intro acc1 hstep
      show (match diffColumnStep t (ops, prev) x with
        | Except.error e => Except.error e
        | Except.ok acc1 => columnPass t cs acc1) = _
      rw [hstep]
    by_cases hprev : (prev.Col x.name).isSome = true
    · cases hcol : t.Col x.name with
      | some c' =>
        cases hda : c'.deprecatedActions with
        | some da =>
          have hmem : c' ∈ t.columns.list := (findKey_eq_of_some Column.name hcol).2
          have hR : da.renameTo = "" := hnr c' hmem da hda
          obtain ⟨ops1, h1⟩ := ih (ops ++ [SqlOp.dropColumn x]) prev
          exact ⟨ops1, by
            rw [hunfold _ (diffColumnStep_dropDeprecated hprev hcol hda hR)]
            exact h1⟩
        | none =>
          obtain ⟨ops1, h1⟩ := ih (ops ++ [SqlOp.modifyColumn x]) prev
          exact ⟨ops1, by
            rw [hunfold _ (diffColumnStep_modify hprev hcol hda)]
            exact h1⟩
      | none =>
        obtain ⟨ops1, h1⟩ := ih (ops ++ [SqlOp.dropColumn x]) prev
        exact ⟨ops1, by
          rw [hunfold _ (diffColumnStep_dropNoCurrent hprev hcol)]
          exact h1⟩
    · have hprev2 : (prev.Col x.name).isSome = false := by simpa using hprev
      cases hdep : x.deprecatedActions with
      | none =>
        obtain ⟨ops1, h1⟩ := ih (ops ++ [SqlOp.addColumn x]) prev
        exact ⟨ops1, by
          rw [hunfold _ (diffColumnStep_add hprev2 hdep)]
          exact h1⟩
      | some da =>
        obtain ⟨ops1, h1⟩ := ih ops prev
        exact ⟨ops1, by
          rw [hunfold _ (diffColumnStep_skip hprev2 hdep)]
          exact h1⟩

/-- **C6 — amended.** `Table.Diff` never modifies the current table (the
embedding is a pure function of it, matching the Go code, which only reads
it), but it does mutate the previous table when it registers a rename
target.  When no current column carries a non-empty rename target, the diff
succeeds and the previous table — its `Columns` and `Keys` collections —
is exactly as before the call. -/
theorem diff_pure_without_renames (t prev : Table) (d : Dialect)
    (hnr : ∀ c ∈ t.columns.list, ∀ da, c.deprecatedActions = some da → da.renameTo = "") :
    ∃ plan, t.Diff prev d = Except.ok (plan, prev) := by
  obtain ⟨ops1, h1⟩ := columnPass_no_rename t hnr t.columns.list [] prev
  refine ⟨ops1 ++ (indexPass t prev d).2 ++ removedIndexPass prev (indexPass t prev d).1, ?_⟩
  show (match columnPass t t.columns.list ([], prev) with
    | Except.error e => Except.error e
    | Except.ok (ops, prev1) =>
        Except.ok (ops ++ (indexPass t prev1 d).2
          ++ removedIndexPass prev1 (indexPass t prev1 d).1, prev1)) = _
  rw [h1]

theorem diff_pure_without_renames_witness :
    ∃ plan, t7.Diff prev7 dpk = Except.ok (plan, prev7) :=
  diff_pure_without_renames t7 prev7 dpk (by decide)



/-! ## C4 (amended) — self-diff -/

theorem columnPass_self (t : Table)
    (hdep : ∀ c ∈ t.columns.list, c.deprecatedActions = none) :
    ∀ (cs : List Column) (ops : List SqlOp), (∀ c ∈ cs, c ∈ t.columns.list) →
      columnPass t cs (ops, t) = Except.ok (ops ++ cs.map SqlOp.modifyColumn, t) := by
  intro cs
  induction cs with
  | nil => intro ops h; simp [columnPass]
  | cons x cs ih =>
    intro ops h
    have hx : x ∈ t.columns.list := h x (List.mem_cons_self x cs)
    have hprev : (t.Col x.name).isSome = true :=
      (findKey_isSome_iff Column.name).mpr (List.mem_map_of_mem Column.name hx)
    obtain ⟨c', hc'⟩ := Option.isSome_iff_exists.mp hprev
    have hc'mem : c' ∈ t.columns.list := (findKey_eq_of_some Column.name hc').2
    have hstep := @diffColumnStep_modify t (ops, t) x c' hprev hc' (hdep c' hc'mem)
    have hrest := ih (ops ++ [SqlOp.modifyColumn x]) (fun c hc => h c (List.mem_cons_of_mem x hc))
    show (match diffColumnStep t (ops, t) x with
      | Except.error e => Except.error e
      | Except.ok acc1 => columnPass t cs acc1) = _
    rw [hstep]
    show columnPass t cs (ops ++ [SqlOp.modifyColumn x], t) = _
    rw [hrest]
    simp

theorem diffKeyStep_self_nil (t : Table) (d : Dialect) (k : Key)
    (hk : k ∈ t.keys.list)
    (hpk : k.primary = true → k.name = d.primaryKeyName)
    (htext : k.primary = false → k.columns.queryText = t.columns.queryText) :
    diffKeyStep t d k = (k.name, []) := by
  have hname : (if k.primary then d.primaryKeyName else k.name) = k.name := by
    cases hp : k.primary
    · rfl
    · exact (hpk hp).symm
  have hsome : (t.getKey k.name).isSome = true :=
    (findKey_isSome_iff Key.name).mpr (List.mem_map_of_mem Key.name hk)
  obtain ⟨k0, hk0⟩ := Option.isSome_iff_exists.mp hsome
  show ((if k.primary then d.primaryKeyName else k.name),
    (match t.getKey (if k.primary then d.primaryKeyName else k.name) with
      | none => [SqlOp.addIndex k]
      | some _ =>
        if !k.primary && k.columns.queryText != t.columns.queryText then
          [SqlOp.dropIndex k, SqlOp.addIndex k]
        else [])) = (k.name, [])
  rw [hname, hk0]
  cases hp : k.primary
  · rw [htext hp]
    simp
  · simp [hp]

theorem indexPass_self (t : Table) (d : Dialect)
    (h : ∀ k ∈ t.keys.list, diffKeyStep t d k = (k.name, [])) :
    indexPass t t d = (t.keys.list.map Key.name, []) := by
  unfold indexPass
  have h1 : t.keys.list.map (diffKeyStep t d)
      = t.keys.list.map (fun k => (k.name, ([] : List SqlOp))) :=
    List.map_congr_left (fun k hk => h k hk)
  rw [h1]
  simp [List.map_map, Function.comp]

theorem removedIndexPass_all_visited (prev : Table) (visited : List String)
    (h : ∀ k ∈ prev.keys.list, visited.contains (strToLower k.name) = true) :
    removedIndexPass prev visited = [] := by
  unfold removedIndexPass
  rw [List.filterMap_eq_nil_iff]
  intro k hk
  rw [if_pos (h k hk)]

/-- **C4 — amended.** Diffing a table with no deprecated columns against
an identical copy of itself yields exactly one `ModifyColumn` per column in
declared order and zero `AddColumn`/`DropColumn` — and zero index
operations provided that every primary key is declared under the dialect's
canonical primary-key name, every key name is already lowercase, and every
non-primary key's column-list text equals the **whole table's** column-list
text (the comparison the code actually performs; equality with the matching
previous key's column list is not sufficient, see the counterexample). -/
theorem diff_self (t : Table) (d : Dialect)
    (hdep : ∀ c ∈ t.columns.list, c.deprecatedActions = none)
    (hpk : ∀ k ∈ t.keys.list, k.primary = true → k.name = d.primaryKeyName)
    (hlow : ∀ k ∈ t.keys.list, strToLower k.name = k.name)
    (htext : ∀ k ∈ t.keys.list, k.primary = false →
      k.columns.queryText = t.columns.queryText) :
    t.Diff t d = Except.ok (t.columns.list.map SqlOp.modifyColumn, t) := by
  have hcp := columnPass_self t hdep t.columns.list [] (fun c hc => hc)
  have hks : ∀ k ∈ t.keys.list, diffKeyStep t d k = (k.name, []) :=
    fun k hk => diffKeyStep_self_nil t d k hk (hpk k hk) (htext k hk)
  have hip := indexPass_self t d hks
  have hrp := removedIndexPass_all_visited t (t.keys.list.map Key.name)
    (fun k hk => by rw [hlow k hk]; simpa using List.mem_map_of_mem Key.name hk)
  show (match columnPass t t.columns.list ([], t) with
    | Except.error e => Except.error e
    | Except.ok (ops, prev1) =>
        Except.ok (ops ++ (indexPass t prev1 d).2
          ++ removedIndexPass prev1 (indexPass t prev1 d).1, prev1)) = _
  rw [hcp]
  show Except.ok (([] ++ t.columns.list.map SqlOp.modifyColumn)
      ++ (indexPass t t d).2 ++ removedIndexPass t (indexPass t t d).1, t) = _
  rw [hip, hrp]
  simp

def kPk : Key := { name := "pk", primary := true, columns := ⟨[cA]⟩ }
def kAll : Key := { name := "all_idx", columns := ⟨[cA]⟩ }
def tGood : Table := { name := "users", columns := ⟨[cA]⟩, keys := ⟨[kPk, kAll]⟩ }

theorem diff_self_witness :
    tGood.Diff tGood dpk
      = Except.ok (tGood.columns.list.map SqlOp.modifyColumn, tGood) :=
  diff_self tGood dpk (by decide) (by decide) (by decide) (by decide)



/-! ## C7 — columns absent from the current schema are never touched -/

theorem diffColumnStep_ops_declared {t : Table} {acc : List SqlOp × Table} {c : Column}
    {ops1 : List SqlOp} {prev1 : Table}
    (hc : c ∈ t.columns.list)
    (h : diffColumnStep t acc c = Except.ok (ops1, prev1)) :
    ∀ op ∈ ops1, op ∈ acc.1 ∨
      ∀ n ∈ op.columnNames, ∃ x ∈ t.columns.list, x.name = n := by
  have hnew : ∀ (extra : List SqlOp), ops1 = acc.1 ++ extra →
      (∀ op ∈ extra, ∀ n ∈ op.columnNames, ∃ x ∈ t.columns.list, x.name = n) →
      ∀ op ∈ ops1, op ∈ acc.1 ∨
        ∀ n ∈ op.columnNames, ∃ x ∈ t.columns.list, x.name = n := by
    intro extra heq hex op hop
    rw [heq] at hop
    rcases List.mem_append.mp hop with h1 | h1
    · exact Or.inl h1
    · exact Or.inr (hex op h1)
  by_cases hprev : ((acc.2).Col c.name).isSome = true
  · cases hcol : t.Col c.name with
    | some c' =>
      cases hda : c'.deprecatedActions with
      | some da =>
        by_cases hR : da.renameTo = ""
        · rw [diffColumnStep_dropDeprecated hprev hcol hda hR] at h
          injection h with h2
          refine hnew [SqlOp.dropColumn c] (congrArg Prod.fst h2).symm ?_
          intro op hop n hn
          have : op = SqlOp.dropColumn c := by simpa using hop
          subst this
          have : n = c.name := by simpa [SqlOp.columnNames] using hn
          subst this
          exact ⟨c, hc, rfl⟩
        · cases htgt : t.Col da.renameTo with
          | none =>
            rw [diffColumnStep_error hprev hcol hda hR htgt] at h
            exact absurd h (by simp)
          | some target =>
            rw [diffColumnStep_rename hprev hcol hda hR htgt] at h
            injection h with h2
            have htd := findKey_eq_of_some Column.name htgt
            refine hnew ((match (acc.2).Col da.renameTo with
                | some prevCol => [SqlOp.dropColumn prevCol]
                | none => []) ++ [SqlOp.renameColumn c target])
              (by rw [← List.append_assoc]; exact (congrArg Prod.fst h2).symm) ?_
            intro op hop n hn
            rcases List.mem_append.mp hop with h1 | h1
            · cases hpc : (acc.2).Col da.renameTo with
              | none => rw [hpc] at h1; exact absurd h1 (List.not_mem_nil op)
              | some prevCol =>
                rw [hpc] at h1
                have : op = SqlOp.dropColumn prevCol := by simpa using h1
                subst this
                have hpcn := findKey_eq_of_some Column.name hpc
                have : n = prevCol.name := by simpa [SqlOp.columnNames] using hn
                subst this
                exact ⟨target, htd.2, by rw [htd.1, hpcn.1]⟩
            · have : op = SqlOp.renameColumn c target := by simpa using h1
              subst this
              rcases (by simpa [SqlOp.columnNames] using hn : n = c.name ∨ n = target.name) with rfl | rfl
              · exact ⟨c, hc, rfl⟩
              · exact ⟨target, htd.2, rfl⟩
      | none =>
        rw [diffColumnStep_modify hprev hcol hda] at h
        injection h with h2
        refine hnew [SqlOp.modifyColumn c] (congrArg Prod.fst h2).symm ?_
        intro op hop n hn
        have : op = SqlOp.modifyColumn c := by simpa using hop
        subst this
        have : n = c.name := by simpa [SqlOp.columnNames] using hn
        subst this
        exact ⟨c, hc, rfl⟩
    | none =>
      rw [diffColumnStep_dropNoCurrent hprev hcol] at h
      injection h with h2
      refine hnew [SqlOp.dropColumn c] (congrArg Prod.fst h2).symm ?_
      intro op hop n hn
      have : op = SqlOp.dropColumn c := by simpa using hop
      subst this
      have : n = c.name := by simpa [SqlOp.columnNames] using hn
      subst this
      exact ⟨c, hc, rfl⟩
  · have hprev2 : ((acc.2).Col c.name).isSome = false := by simpa using hprev
    cases hdep : c.deprecatedActions with
    | none =>
      rw [diffColumnStep_add hprev2 hdep] at h
      injection h with h2
      refine hnew [SqlOp.addColumn c] (congrArg Prod.fst h2).symm ?_
      intro op hop n hn
      have : op = SqlOp.addColumn c := by simpa using hop
      subst this
      have : n = c.name := by simpa [SqlOp.columnNames] using hn
      subst this
      exact ⟨c, hc, rfl⟩
    | some da =>
      rw [diffColumnStep_skip hprev2 hdep] at h
      injection h with h2
      refine hnew [] (by simpa using (congrArg Prod.fst h2).symm) ?_
      intro op hop
      exact absurd hop (List.not_mem_nil op)

theorem columnPass_ops_declared (t : Table) :
    ∀ (cs : List Column) (acc : List SqlOp × Table) (ops1 : List SqlOp) (prev1 : Table),
      (∀ c ∈ cs, c ∈ t.columns.list) →
      columnPass t cs acc = Except.ok (ops1, prev1) →
      ∀ op ∈ ops1, op ∈ acc.1 ∨
        ∀ n ∈ op.columnNames, ∃ x ∈ t.columns.list, x.name = n := by
  intro cs
  induction cs with
  | nil =>
    intro acc ops1 prev1 _ h op hop
    have h2 : Except.ok (acc.1, acc.2) = Except.ok (ops1, prev1) := h
    injection h2 with h3
    exact Or.inl ((congrArg Prod.fst h3) ▸ hop)
  | cons x cs ih =>
    intro acc ops1 prev1 hsub h op hop
    have hx : x ∈ t.columns.list := hsub x (List.mem_cons_self x cs)
    cases hstep : diffColumnStep t acc x with
    | error e =>
      have : columnPass t (x :: cs) acc = Except.error e := by
        show (match diffColumnStep t acc x with
          | Except.error e => Except.error e
          | Except.ok acc1 => columnPass t cs acc1) = _
        rw [hstep]
      rw [this] at h
      exact absurd h (by simp)
    | ok acc1 =>
      have hrest : columnPass t (x :: cs) acc = columnPass t cs acc1 := by
        show (match diffColumnStep t acc x with
          | Except.error e => Except.error e
          | Except.ok acc1 => columnPass t cs acc1) = _
        rw [hstep]
      rw [hrest] at h
      rcases ih acc1 ops1 prev1 (fun c hc => hsub c (List.mem_cons_of_mem x hc)) h op hop with h1 | h1
      · have hstep2 : diffColumnStep t acc x = Except.ok (acc1.1, acc1.2) := hstep
        exact diffColumnStep_ops_declared hx hstep2 op h1
      · exact Or.inr h1

theorem diffKeyStep_ops_no_columns (prev : Table) (d : Dialect) (k : Key) :
    ∀ op ∈ (diffKeyStep prev d k).2, op.columnNames = [] := by
  intro op hop
  have heq : (diffKeyStep prev d k).2
      = (match prev.getKey (if k.primary then d.primaryKeyName else k.name) with
        | none => [SqlOp.addIndex k]
        | some _ =>
          if !k.primary && k.columns.queryText != prev.columns.queryText then
            [SqlOp.dropIndex k, SqlOp.addIndex k]
          else []) := rfl
  rw [heq] at hop
  cases hg : prev.getKey (if k.primary then d.primaryKeyName else k.name) with
  | none =>
    rw [hg] at hop
    have : op = SqlOp.addIndex k := by simpa using hop
    subst this
    rfl
  | some k0 =>
    rw [hg] at hop
    by_cases hc : (!k.primary && k.columns.queryText != prev.columns.queryText) = true
    · rw [if_pos hc] at hop
      rcases (by simpa using hop : op = SqlOp.dropIndex k ∨ op = SqlOp.addIndex k) with rfl | rfl
      · rfl
      · rfl
    · rw [if_neg hc] at hop
      exact absurd hop (List.not_mem_nil op)

theorem indexPass_ops_no_columns (t prev : Table) (d : Dialect) :
    ∀ op ∈ (indexPass t prev d).2, op.columnNames = [] := by
  intro op hop
  have heq : (indexPass t prev d).2
      = ((t.keys.list.map (diffKeyStep prev d)).map Prod.snd).flatten := rfl
  rw [heq] at hop
  obtain ⟨l, hl, hopl⟩ := List.mem_flatten.mp hop
  obtain ⟨p, hp, rfl⟩ := List.mem_map.mp hl
  obtain ⟨k, hk, rfl⟩ := List.mem_map.mp hp
  exact diffKeyStep_ops_no_columns prev d k op hopl

theorem removedIndexPass_ops_no_columns (prev : Table) (visited : List String) :
    ∀ op ∈ removedIndexPass prev visited, op.columnNames = [] := by
  intro op hop
  obtain ⟨k, hk, hf⟩ := List.mem_filterMap.mp hop
  by_cases hc : visited.contains (strToLower k.name) = true
  · rw [if_pos hc] at hf
    exact absurd hf (by simp)
  · rw [if_neg hc] at hf
    injection hf with h2
    rw [← h2]
    rfl

/-- **C7.** Every column operation in a successful plan names only columns
declared in the current table, so a previous-table column whose name is not
the name of any current column is never the subject of any operation — in
particular no `DropColumn` is ever emitted for a column that is simply
absent from the current schema. -/
theorem diff_ignores_absent_prev_columns (t prev : Table) (d : Dialect)
    (plan : List SqlOp) (prev1 : Table)
    (hdiff : t.Diff prev d = Except.ok (plan, prev1))
    (pc : Column) (hpc : pc ∈ prev.columns.list)
    (habs : ∀ x ∈ t.columns.list, x.name ≠ pc.name) :
    ∀ op ∈ plan, pc.name ∉ op.columnNames := by
  cases hcp : columnPass t t.columns.list ([], prev) with
  | error e =>
    have : t.Diff prev d = Except.error e := by
      show (match columnPass t t.columns.list ([], prev) with
        | Except.error e => Except.error e
        | Except.ok (ops, prev1) =>
            Except.ok (ops ++ (indexPass t prev1 d).2
              ++ removedIndexPass prev1 (indexPass t prev1 d).1, prev1)) = _
      rw [hcp]
    rw [this] at hdiff
    exact absurd hdiff (by simp)
  | ok acc1 =>
    have hD : t.Diff prev d
        = Except.ok (acc1.1 ++ (indexPass t acc1.2 d).2
            ++ removedIndexPass acc1.2 (indexPass t acc1.2 d).1, acc1.2) := by
      show (match columnPass t t.columns.list ([], prev) with
        | Except.error e => Except.error e
        | Except.ok (ops, prev1) =>
            Except.ok (ops ++ (indexPass t prev1 d).2
              ++ removedIndexPass prev1 (indexPass t prev1 d).1, prev1)) = _
      rw [hcp]
    rw [hD] at hdiff
    injection hdiff with h2
    have hplan : plan = acc1.1 ++ (indexPass t acc1.2 d).2
        ++ removedIndexPass acc1.2 (indexPass t acc1.2 d).1 :=
      (congrArg Prod.fst h2).symm
    intro op hop
    rw [hplan] at hop
    rcases List.mem_append.mp hop with hop1 | hop1
    · rcases List.mem_append.mp hop1 with hop2 | hop2
      · have hcp2 : columnPass t t.columns.list ([], prev)
            = Except.ok (acc1.1, acc1.2) := hcp
        rcases columnPass_ops_declared t t.columns.list ([], prev) acc1.1 acc1.2
          (fun c hc => hc) hcp2 op hop2 with h3 | h3
        · exact absurd h3 (List.not_mem_nil op)
        · intro hmem
          obtain ⟨x, hx, hxn⟩ := h3 pc.name hmem
          exact habs x hx hxn
      · rw [indexPass_ops_no_columns t acc1.2 d op hop2]
        exact List.not_mem_nil pc.name
    · rw [removedIndexPass_ops_no_columns acc1.2 _ op hop1]
      exact List.not_mem_nil pc.name

theorem diff_ignores_absent_prev_columns_witness :
    "z" ∉ (SqlOp.modifyColumn cA).columnNames :=
  diff_ignores_absent_prev_columns t7 prev7 dpk
    [SqlOp.modifyColumn cA] prev7 (by decide) zObs (by decide) (by decide)
    (SqlOp.modifyColumn cA) (by decide)

end Sqlx
